import Mathlib

/-!
# Verification of the Golem-Base TypeScript SDK transaction codec

This development embeds the transaction codec of the Golem-Base TypeScript
SDK (`src/internal/client.ts` payload encoder `createPayload`, and
`src/client.ts` event decoder `parseTransactionLogs`) together with the
relevant behaviour of the `viem` library functions it delegates to
(`toHex`, `hexToBytes`, `pad`, `toRlp`, `decodeEventLog`), and proves
properties of the codec against its specification.

Conventions of the embedding:
* bytes are `Nat`s below 256 in a `List Nat` (most significant first);
* a JavaScript hex string `0x…` is represented by the list of its hex
  digit values (each below 16), the `0x` prefix being implicit, so the
  JavaScript string length is the list length plus two;
* JavaScript `number`/`bigint` integer values are `Nat` (all integers the
  encoder is given are non-negative; fractional or negative inputs make
  `viem.toHex` throw and are outside the codec's well-formed domain);
* 32-byte log topics are represented by their numeric value (a `Nat`);
  event-signature hashes (keccak-256 of the canonical event signature) are
  modelled as distinct abstract constants, reflecting that the six distinct
  canonical signature strings hash to six distinct 32-byte values.
-/

namespace GolemSdk

/-! ## Big-endian digit and byte values -/

/-- Value of a big-endian list of base-256 digits (bytes). -/
def beVal (bs : List Nat) : Nat := bs.foldl (fun a b => 256 * a + b) 0

/-- Value of a big-endian list of base-16 digits, i.e. the numeric value of
the hex string they spell (JavaScript `BigInt("0x" + digits)`). -/
def hexVal (ds : List Nat) : Nat := ds.foldl (fun a d => 16 * a + d) 0

/-- Minimal big-endian base-`b` digit list of `n` (no leading zero digit,
`n = 0` gives `[]`), written with explicit fuel so that it is structural
recursion and closed instances evaluate inside the kernel. -/
def minDigitsAux (b : Nat) : Nat → Nat → List Nat
  | 0, _ => []
  | f + 1, n => if n = 0 then [] else minDigitsAux b f (n / b) ++ [n % b]

/-- Minimal big-endian base-`b` digit list of `n`; `n` itself is always
enough fuel because the argument shrinks by at least a factor `b ≥ 2`. -/
def minDigits (b n : Nat) : List Nat := minDigitsAux b n n

/-- `viem.toHex` on a non-negative integer: `"0x" + n.toString(16)`, i.e.
the minimal hex digits of `n`, except that `0` renders as `"0x0"`. -/
def toHexDigits (n : Nat) : List Nat := if n = 0 then [0] else minDigits 16 n

/-- Minimal big-endian byte string of `n` (`0` gives the empty string). -/
def beBytes (n : Nat) : List Nat := minDigits 256 n

/-- Pair up hex digits into bytes, most significant digit first.
(Only ever applied to lists of even length.) -/
def nibblesToBytes : List Nat → List Nat
  | h :: l :: rest => (16 * h + l) :: nibblesToBytes rest
  | [h] => [h]
  | [] => []

/-- `viem.hexToBytes`: if the digit count is odd a `0` digit is prepended,
then digits are paired into bytes. -/
def hexToBytesL (ds : List Nat) : List Nat :=
  nibblesToBytes (if ds.length % 2 = 1 then 0 :: ds else ds)

/-- The byte string that the encoder's integer rule produces: the code
computes `toHex(n)` and `toRlp` then converts that hex string to bytes
with `hexToBytes`. -/
def encodeIntViem (n : Nat) : List Nat := hexToBytesL (toHexDigits n)

/-- Hex digit list of a byte string (`viem.toHex` on a `Uint8Array`):
two digits per byte. -/
def bytesToHexDigits (bs : List Nat) : List Nat :=
  bs.foldr (fun b acc => b / 16 :: b % 16 :: acc) []

/-! ### Lemmas about digit values -/

theorem beVal_append (xs ys : List Nat) :
    beVal (xs ++ ys) = beVal xs * 256 ^ ys.length + beVal ys := by
  induction ys using List.reverseRecOn with
  | nil => simp [beVal]
  | append_singleton ys y ih =>
    have h1 : beVal ((xs ++ ys) ++ [y]) = 256 * beVal (xs ++ ys) + y := by
      simp [beVal, List.foldl_append]
    have h2 : beVal (ys ++ [y]) = 256 * beVal ys + y := by
      simp [beVal, List.foldl_append]
    have h3 : xs ++ (ys ++ [y]) = (xs ++ ys) ++ [y] := by simp
    rw [h3, h1, ih, h2]
    simp only [List.length_append, List.length_singleton, pow_succ, pow_zero, one_mul]
    ring

theorem hexVal_append (xs ys : List Nat) :
    hexVal (xs ++ ys) = hexVal xs * 16 ^ ys.length + hexVal ys := by
  induction ys using List.reverseRecOn with
  | nil => simp [hexVal]
  | append_singleton ys y ih =>
    have h1 : hexVal ((xs ++ ys) ++ [y]) = 16 * hexVal (xs ++ ys) + y := by
      simp [hexVal, List.foldl_append]
    have h2 : hexVal (ys ++ [y]) = 16 * hexVal ys + y := by
      simp [hexVal, List.foldl_append]
    have h3 : xs ++ (ys ++ [y]) = (xs ++ ys) ++ [y] := by simp
    rw [h3, h1, ih, h2]
    simp only [List.length_append, List.length_singleton, pow_succ, pow_zero, one_mul]
    ring

@[simp] theorem beVal_nil : beVal [] = 0 := rfl

@[simp] theorem hexVal_nil : hexVal [] = 0 := rfl

theorem beVal_cons (b : Nat) (bs : List Nat) :
    beVal (b :: bs) = b * 256 ^ bs.length + beVal bs := by
  have := beVal_append [b] bs
  simpa [beVal] using this

theorem hexVal_cons (d : Nat) (ds : List Nat) :
    hexVal (d :: ds) = d * 16 ^ ds.length + hexVal ds := by
  have := hexVal_append [d] ds
  simpa [hexVal] using this

/-- With enough fuel, `minDigitsAux` really computes a base-`b`
representation of `n`. -/
theorem minDigitsAux_val (b : Nat) (hb : 2 ≤ b) :
    ∀ f n, n ≤ f → (minDigitsAux b f n).foldl (fun a d => b * a + d) 0 = n := by
  intro f
  induction f with
  | zero => intro n hn; interval_cases n; rfl
  | succ f ih =>
    intro n hn
    by_cases h0 : n = 0
    · simp [minDigitsAux, h0]
    · have hdiv : n / b ≤ f := by
        have : n / b < n := Nat.div_lt_self (Nat.pos_of_ne_zero h0) (by omega)
        omega
      have hrec := ih (n / b) hdiv
      simp only [minDigitsAux, h0, if_false, List.foldl_append, hrec, List.foldl_cons,
        List.foldl_nil]
      exact Nat.div_add_mod n b

theorem hexVal_minDigits (n : Nat) : hexVal (minDigits 16 n) = n :=
  minDigitsAux_val 16 (by norm_num) n n le_rfl

theorem beVal_beBytes (n : Nat) : beVal (beBytes n) = n :=
  minDigitsAux_val 256 (by norm_num) n n le_rfl

theorem hexVal_toHexDigits (n : Nat) : hexVal (toHexDigits n) = n := by
  by_cases h : n = 0
  · simp [toHexDigits, h, hexVal]
  · simp [toHexDigits, h, hexVal_minDigits]

/-- Digit lists produced by `minDigitsAux` only contain digits below the
base. -/
theorem minDigitsAux_lt (b : Nat) (hb : 2 ≤ b) :
    ∀ f n, ∀ d ∈ minDigitsAux b f n, d < b := by
  intro f
  induction f with
  | zero => intro n d hd; simp [minDigitsAux] at hd
  | succ f ih =>
    intro n d hd
    by_cases h0 : n = 0
    · simp [minDigitsAux, h0] at hd
    · simp only [minDigitsAux, h0, if_false, List.mem_append, List.mem_singleton] at hd
      rcases hd with hd | hd
      · exact ih _ _ hd
      · subst hd; exact Nat.mod_lt n (by omega)

theorem beBytes_lt (n : Nat) : ∀ d ∈ beBytes n, d < 256 :=
  minDigitsAux_lt 256 (by norm_num) n n

theorem minDigits16_lt (n : Nat) : ∀ d ∈ minDigits 16 n, d < 16 :=
  minDigitsAux_lt 16 (by norm_num) n n

/-- Upper length bound: fewer than `b ^ k` needs at most `k` digits. -/
theorem minDigitsAux_length_le (b : Nat) (hb : 2 ≤ b) :
    ∀ f n k, n ≤ f → n < b ^ k → (minDigitsAux b f n).length ≤ k := by
  intro f
  induction f with
  | zero => intro n k _ _; simp [minDigitsAux]
  | succ f ih =>
    intro n k hn hk
    by_cases h0 : n = 0
    · simp [minDigitsAux, h0]
    · have hkpos : k ≠ 0 := by
        intro h; subst h; simp at hk; omega
      obtain ⟨k', rfl⟩ : ∃ k', k = k' + 1 := ⟨k - 1, by omega⟩
      have hdiv : n / b ≤ f := by
        have : n / b < n := Nat.div_lt_self (Nat.pos_of_ne_zero h0) (by omega)
        omega
      have hdivlt : n / b < b ^ k' := by
        rw [Nat.div_lt_iff_lt_mul (by omega)]
        calc n < b ^ (k' + 1) := hk
        _ = b ^ k' * b := by rw [pow_succ]
      have := ih (n / b) k' hdiv hdivlt
      simp only [minDigitsAux, h0, if_false, List.length_append, List.length_singleton]
      omega

/-- Lower length bound: the value is below `b ^ length`. -/
theorem minDigitsAux_lt_pow_length (b : Nat) (hb : 2 ≤ b) :
    ∀ f n, n ≤ f → n < b ^ (minDigitsAux b f n).length := by
  intro f
  induction f with
  | zero => intro n hn; interval_cases n; simp [minDigitsAux]
  | succ f ih =>
    intro n hn
    by_cases h0 : n = 0
    · simp [minDigitsAux, h0]
    · have hdiv : n / b ≤ f := by
        have : n / b < n := Nat.div_lt_self (Nat.pos_of_ne_zero h0) (by omega)
        omega
      have hrec := ih (n / b) hdiv
      simp only [minDigitsAux, h0, if_false, List.length_append, List.length_singleton]
      have hmod : n % b < b := Nat.mod_lt n (by omega)
      have : n = b * (n / b) + n % b := (Nat.div_add_mod n b).symm
      calc n = b * (n / b) + n % b := this
      _ < b * (n / b) + b := by omega
      _ = b * (n / b + 1) := by ring
      _ ≤ b * b ^ (minDigitsAux b f (n / b)).length := by
            have : n / b + 1 ≤ b ^ (minDigitsAux b f (n / b)).length := hrec
            exact Nat.mul_le_mul_left b this
      _ = b ^ ((minDigitsAux b f (n / b)).length + 1) := by rw [pow_succ]; ring

/-- The leading digit of a nonzero minimal representation is nonzero. -/
theorem minDigitsAux_head_ne_zero (b : Nat) (hb : 2 ≤ b) :
    ∀ f n, 1 ≤ n → n ≤ f → (minDigitsAux b f n).head? ≠ some 0 := by
  intro f
  induction f with
  | zero => intro n h1 h2; omega
  | succ f ih =>
    intro n h1 hn
    have h0 : n ≠ 0 := by omega
    simp only [minDigitsAux, h0, if_false]
    by_cases hq : n / b = 0
    · have hlt : n < b := (Nat.div_eq_zero_iff (by omega)).mp hq
      have hnil : minDigitsAux b f (n / b) = [] := by
        cases f <;> simp [minDigitsAux, hq]
      rw [hnil]
      simp only [List.nil_append, List.head?_cons, ne_eq, Option.some.injEq]
      have : n % b = n := Nat.mod_eq_of_lt hlt
      omega
    · have hq1 : 1 ≤ n / b := Nat.pos_of_ne_zero hq
      have hdiv : n / b ≤ f := by
        have : n / b < n := Nat.div_lt_self (by omega) (by omega)
        omega
      have hrec := ih (n / b) hq1 hdiv
      obtain ⟨a, xs, hax⟩ : ∃ a xs, minDigitsAux b f (n / b) = a :: xs := by
        cases hcase : minDigitsAux b f (n / b) with
        | nil =>
          have hval := minDigitsAux_val b hb f (n / b) hdiv
          rw [hcase] at hval
          simp at hval
          omega
        | cons a xs => exact ⟨a, xs, rfl⟩
      rw [hax] at hrec ⊢
      simpa using hrec

theorem minDigits_ne_nil (b n : Nat) (hn : 1 ≤ n) :
    minDigits b n ≠ [] := by
  unfold minDigits
  cases n with
  | zero => omega
  | succ m => simp [minDigitsAux]

/-! ### Lemmas about `hexToBytesL` -/

theorem nibblesToBytes_even (h l : Nat) (rest : List Nat) :
    nibblesToBytes (h :: l :: rest) = (16 * h + l) :: nibblesToBytes rest := rfl

theorem nibblesToBytes_length_even :
    ∀ ds : List Nat, ds.length % 2 = 0 → (nibblesToBytes ds).length = ds.length / 2
  | [], _ => rfl
  | [_], h => by simp at h
  | h₀ :: l :: rest, h => by
    have hr : rest.length % 2 = 0 := by simp [List.length_cons] at h; omega
    rw [nibblesToBytes_even, List.length_cons, nibblesToBytes_length_even rest hr]
    simp [List.length_cons]
    omega

theorem beVal_nibblesToBytes :
    ∀ ds : List Nat, ds.length % 2 = 0 → beVal (nibblesToBytes ds) = hexVal ds
  | [], _ => rfl
  | [_], h => by simp at h
  | h₀ :: l :: rest, h => by
    have hr : rest.length % 2 = 0 := by simp [List.length_cons] at h; omega
    rw [nibblesToBytes_even, beVal_cons, beVal_nibblesToBytes rest hr,
      nibblesToBytes_length_even rest hr, hexVal_cons, hexVal_cons]
    have hpow : (256 : Nat) ^ (rest.length / 2) = 16 ^ rest.length := by
      obtain ⟨k, hk⟩ : ∃ k, rest.length = 2 * k := ⟨rest.length / 2, by omega⟩
      rw [hk]
      simp [pow_mul]
    rw [hpow]
    simp only [List.length_cons, pow_succ]
    ring

theorem beVal_hexToBytesL (ds : List Nat) : beVal (hexToBytesL ds) = hexVal ds := by
  unfold hexToBytesL
  by_cases h : ds.length % 2 = 1
  · rw [if_pos h, beVal_nibblesToBytes _ (by simp [List.length_cons]; omega), hexVal_cons]
    simp
  · rw [if_neg h, beVal_nibblesToBytes _ (by omega)]

theorem nibblesToBytes_lt :
    ∀ ds : List Nat, (∀ d ∈ ds, d < 16) → ∀ x ∈ nibblesToBytes ds, x < 256
  | [], _ => by simp [nibblesToBytes]
  | [a], hd => by
    have h16 : a < 16 := hd a (by simp)
    intro x hx
    simp only [nibblesToBytes, List.mem_singleton] at hx
    omega
  | h₀ :: l :: rest, hd => by
    rw [nibblesToBytes_even]
    intro x hx
    rcases List.mem_cons.mp hx with hx | hx
    · subst hx
      have h1 := hd h₀ (by simp)
      have h2 := hd l (by simp)
      omega
    · exact nibblesToBytes_lt rest (fun d hdm => hd d (by simp [hdm])) x hx

theorem hexToBytesL_lt (ds : List Nat) (hd : ∀ d ∈ ds, d < 16) :
    ∀ x ∈ hexToBytesL ds, x < 256 := by
  unfold hexToBytesL
  split
  · refine nibblesToBytes_lt _ ?_
    intro d hdm
    rcases List.mem_cons.mp hdm with h | h
    · omega
    · exact hd d h
  · exact nibblesToBytes_lt _ hd

theorem hexToBytesL_length (ds : List Nat) :
    (hexToBytesL ds).length = (ds.length + 1) / 2 := by
  unfold hexToBytesL
  by_cases h : ds.length % 2 = 1
  · rw [if_pos h, nibblesToBytes_length_even _ (by simp [List.length_cons]; omega)]
    simp only [List.length_cons]
  · rw [if_neg h, nibblesToBytes_length_even _ (by omega)]
    omega

theorem hexToBytesL_head_ne_zero (d₀ : Nat) (ds : List Nat) (h0 : d₀ ≠ 0) :
    ∀ a ∈ (hexToBytesL (d₀ :: ds)).head?, a ≠ 0 := by
  unfold hexToBytesL
  by_cases h : (d₀ :: ds).length % 2 = 1
  · rw [if_pos h, nibblesToBytes_even]
    intro a ha
    simp only [List.head?_cons, Option.mem_def, Option.some.injEq] at ha
    omega
  · rw [if_neg h]
    match ds with
    | [] => simp at h
    | l :: rest =>
      rw [nibblesToBytes_even]
      intro a ha
      simp only [List.head?_cons, Option.mem_def, Option.some.injEq] at ha
      omega

/-! ### The encoder's integer encoding `encodeIntViem` -/

theorem beVal_encodeIntViem (n : Nat) : beVal (encodeIntViem n) = n := by
  rw [encodeIntViem, beVal_hexToBytesL, hexVal_toHexDigits]

theorem encodeIntViem_zero : encodeIntViem 0 = [0] := rfl

theorem encodeIntViem_lt (n : Nat) : ∀ x ∈ encodeIntViem n, x < 256 := by
  refine hexToBytesL_lt _ ?_
  intro d hdm
  unfold toHexDigits at hdm
  split at hdm
  · simp at hdm; omega
  · exact minDigits16_lt n d hdm

theorem encodeIntViem_head_ne_zero (n : Nat) (hn : 1 ≤ n) :
    ∀ a ∈ (encodeIntViem n).head?, a ≠ 0 := by
  unfold encodeIntViem toHexDigits
  rw [if_neg (by omega)]
  obtain ⟨d₀, ds, hds⟩ : ∃ d₀ ds, minDigits 16 n = d₀ :: ds := by
    cases hcase : minDigits 16 n with
    | nil => exact absurd hcase (minDigits_ne_nil 16 n hn)
    | cons a xs => exact ⟨a, xs, rfl⟩
  rw [hds]
  refine hexToBytesL_head_ne_zero d₀ ds ?_
  have := minDigitsAux_head_ne_zero 16 (by norm_num) n n hn le_rfl
  rw [show minDigitsAux 16 n n = minDigits 16 n from rfl, hds] at this
  simp at this
  exact this

/-- Any big-endian byte string's value is below `256 ^ length`. -/
theorem beVal_lt_pow (bs : List Nat) (h : ∀ x ∈ bs, x < 256) :
    beVal bs < 256 ^ bs.length := by
  induction bs with
  | nil => simp [beVal]
  | cons b t ih =>
    rw [beVal_cons, List.length_cons, pow_succ]
    have hb := h b (by simp)
    have ht := ih (fun x hx => h x (by simp [hx]))
    calc b * 256 ^ t.length + beVal t
        ≤ 255 * 256 ^ t.length + beVal t := by
          have : b ≤ 255 := by omega
          exact Nat.add_le_add_right (Nat.mul_le_mul_right _ this) _
      _ < 255 * 256 ^ t.length + 256 ^ t.length := by omega
      _ = 256 ^ t.length * 256 := by ring


/-- A byte string with a nonzero leading byte is at least `256 ^ (length - 1)`. -/
theorem le_beVal_of_head_ne_zero (a : Nat) (t : List Nat) (ha : a ≠ 0) :
    256 ^ t.length ≤ beVal (a :: t) := by
  rw [beVal_cons]
  have : 1 * 256 ^ t.length ≤ a * 256 ^ t.length :=
    Nat.mul_le_mul_right _ (by omega)
  omega

/-- Minimality: no byte string denoting `n ≥ 1` is shorter than the
encoder's rendering of `n`. -/
theorem encodeIntViem_length_min (n : Nat) (hn : 1 ≤ n) (bs : List Nat)
    (hlt : ∀ x ∈ bs, x < 256) (hval : beVal bs = n) :
    (encodeIntViem n).length ≤ bs.length := by
  obtain ⟨a, t, hat⟩ : ∃ a t, encodeIntViem n = a :: t := by
    cases hcase : encodeIntViem n with
    | nil =>
      have := beVal_encodeIntViem n
      rw [hcase] at this
      simp at this
      omega
    | cons a xs => exact ⟨a, xs, rfl⟩
  have ha : a ≠ 0 := by
    have := encodeIntViem_head_ne_zero n hn
    rw [hat] at this
    simpa using this
  have hlow : 256 ^ t.length ≤ n := by
    have := le_beVal_of_head_ne_zero a t ha
    rw [← hat, beVal_encodeIntViem] at this
    exact this
  have hhigh : n < 256 ^ bs.length := hval ▸ beVal_lt_pow bs hlt
  have : 256 ^ t.length < 256 ^ bs.length := lt_of_le_of_lt hlow hhigh
  have := (Nat.pow_lt_pow_iff_right (by norm_num : 1 < 256)).mp this
  rw [hat]
  simp [List.length_cons]
  omega

/-! ## RLP items and `viem.toRlp`

`toRlp` receives a recursive array whose leaves are hex strings and
converts each leaf to bytes with `hexToBytes`; an `Item` is that tree
after leaf conversion. -/

inductive Item where
  | bytes : List Nat → Item
  | list : List Item → Item
deriving Repr

mutual

/-- `viem.toRlp` serialisation of one item. A byte string of length one
whose byte is below `0x80` is its own encoding; otherwise byte strings and
lists get a length header (single byte for payloads up to 55 bytes, else a
header byte followed by the big-endian payload length). -/
def encodeItem : Item → List Nat
  | .bytes bs =>
    if bs.length = 1 ∧ bs.headD 0 < 128 then bs
    else if bs.length ≤ 55 then (128 + bs.length) :: bs
    else (183 + (beBytes bs.length).length) :: (beBytes bs.length ++ bs)
  | .list items =>
    let p := encodeItems items
    if p.length ≤ 55 then (192 + p.length) :: p
    else (247 + (beBytes p.length).length) :: (beBytes p.length ++ p)

/-- Concatenation of the encodings of a sequence of items (an RLP list
payload). -/
def encodeItems : List Item → List Nat
  | [] => []
  | it :: rest => encodeItem it ++ encodeItems rest

end

/-- `toRlp` output for an item, as bytes. -/
def toRlpBytes : Item → List Nat := encodeItem

mutual

/-- RLP decoder for one item, with explicit fuel (structural recursion, so
closed instances evaluate inside the kernel). Returns the decoded item and
the unconsumed remainder of the input. -/
def decodeItemF : Nat → List Nat → Option (Item × List Nat)
  | 0, _ => none
  | _ + 1, [] => none
  | f + 1, b :: rest =>
    if b < 128 then some (.bytes [b], rest)
    else if b < 184 then
      let n := b - 128
      if n ≤ rest.length then some (.bytes (rest.take n), rest.drop n) else none
    else if b < 192 then
      let ll := b - 183
      if ll ≤ rest.length then
        let n := beVal (rest.take ll)
        let rest2 := rest.drop ll
        if n ≤ rest2.length then some (.bytes (rest2.take n), rest2.drop n) else none
      else none
    else if b < 248 then
      let n := b - 192
      if n ≤ rest.length then
        match decodeItemsF f (rest.take n) with
        | some items => some (.list items, rest.drop n)
        | none => none
      else none
    else
      let ll := b - 247
      if ll ≤ rest.length then
        let n := beVal (rest.take ll)
        let rest2 := rest.drop ll
        if n ≤ rest2.length then
          match decodeItemsF f (rest2.take n) with
          | some items => some (.list items, rest2.drop n)
          | none => none
        else none
      else none

/-- Decode a whole RLP list payload into its sequence of items. -/
def decodeItemsF : Nat → List Nat → Option (List Item)
  | 0, _ => none
  | _ + 1, [] => some []
  | f + 1, b :: rest =>
    match decodeItemF f (b :: rest) with
    | some (it, rest2) =>
      match decodeItemsF f rest2 with
      | some items => some (it :: items)
      | none => none
    | none => none

end

/-- The RLP decoder: fuel twice the input length plus two always suffices
(no decoding path visits more than that many nodes). -/
def rlpDecode (bs : List Nat) : Option (Item × List Nat) :=
  decodeItemF (2 * bs.length + 2) bs

mutual

/-- Fuel needed by `decodeItemF` on this item's encoding. -/
def itemFuel : Item → Nat
  | .bytes _ => 1
  | .list items => itemsFuel items + 1

/-- Fuel needed by `decodeItemsF` on this payload. -/
def itemsFuel : List Item → Nat
  | [] => 1
  | it :: rest => max (itemFuel it) (itemsFuel rest) + 1

end

mutual

/-- Well-formedness for the encoder: every byte-string leaf and every list
payload is shorter than `2 ^ 32` bytes (beyond that `viem.toRlp` throws,
and the RLP length headers of this embedding stop being faithful). -/
def wfItem : Item → Bool
  | .bytes bs => decide (bs.length < 2 ^ 32)
  | .list items => decide ((encodeItems items).length < 2 ^ 32) && wfItems items

/-- `wfItem` for every item in a payload, plus the payload length bound. -/
def wfItems : List Item → Bool
  | [] => true
  | it :: rest => wfItem it && wfItems rest

end

/-! ### Round trip: decoding an encoding -/

theorem itemFuel_pos : ∀ it : Item, 1 ≤ itemFuel it
  | .bytes _ => le_refl 1
  | .list items => by simp [itemFuel]

theorem itemsFuel_pos : ∀ items : List Item, 1 ≤ itemsFuel items
  | [] => le_refl 1
  | _ :: _ => by simp [itemsFuel]

theorem encodeItem_ne_nil (it : Item) : encodeItem it ≠ [] := by
  match it with
  | .bytes bs =>
    rw [encodeItem]
    split
    · rename_i h
      intro hc
      rw [hc] at h
      simp at h
    · split <;> simp
  | .list items =>
    rw [encodeItem]
    split <;> simp

theorem beBytes_ne_nil (n : Nat) (hn : 1 ≤ n) : beBytes n ≠ [] :=
  minDigits_ne_nil 256 n hn

theorem beBytes_length_le_four (n : Nat) (hn : n < 2 ^ 32) :
    (beBytes n).length ≤ 4 :=
  minDigitsAux_length_le 256 (by norm_num) n n 4 le_rfl (by norm_num at hn ⊢; omega)

/-- The big round-trip induction: with fuel at least `itemFuel`/`itemsFuel`,
decoding an encoding (followed by anything) returns the original item and
the remainder untouched. -/
theorem decode_encode (f : Nat) :
    (∀ it rest, wfItem it = true → itemFuel it ≤ f →
      decodeItemF f (encodeItem it ++ rest) = some (it, rest)) ∧
    (∀ items, wfItems items = true → itemsFuel items ≤ f →
      decodeItemsF f (encodeItems items) = some items) := by
  induction f with
  | zero =>
    constructor
    · intro it rest _ hf
      exact absurd hf (by have := itemFuel_pos it; omega)
    · intro items _ hf
      exact absurd hf (by have := itemsFuel_pos items; omega)
  | succ f ih =>
    constructor
    · intro it rest hwf hfuel
      match it with
      | .bytes bs =>
        by_cases h1 : bs.length = 1 ∧ bs.headD 0 < 128
        · obtain ⟨a, rfl⟩ : ∃ a, bs = [a] := by
            match bs, h1.1 with
            | [a], _ => exact ⟨a, rfl⟩
          have ha : a < 128 := by simpa using h1.2
          rw [encodeItem, if_pos h1]
          show decodeItemF (f + 1) (a :: rest) = _
          simp [decodeItemF, ha]
        · rw [encodeItem, if_neg h1]
          by_cases h2 : bs.length ≤ 55
          · rw [if_pos h2]
            show decodeItemF (f + 1) ((128 + bs.length) :: (bs ++ rest)) = _
            have c1 : ¬ (128 + bs.length < 128) := by omega
            have c2 : 128 + bs.length < 184 := by omega
            simp only [decodeItemF, if_neg c1, if_pos c2]
            have e1 : 128 + bs.length - 128 = bs.length := by omega
            rw [e1, if_pos (by simp)]
            rw [List.take_left, List.drop_left]
          · rw [if_neg h2]
            have hwfb : bs.length < 2 ^ 32 := by
              rw [wfItem] at hwf
              exact of_decide_eq_true hwf
            have hll1 : 1 ≤ (beBytes bs.length).length := by
              have := beBytes_ne_nil bs.length (by omega)
              cases hb : beBytes bs.length with
              | nil => exact absurd hb this
              | cons x xs => simp [hb]
            have hll4 : (beBytes bs.length).length ≤ 4 :=
              beBytes_length_le_four _ hwfb
            show decodeItemF (f + 1)
              ((183 + (beBytes bs.length).length) :: (beBytes bs.length ++ bs ++ rest)) = _
            have c1 : ¬ (183 + (beBytes bs.length).length < 128) := by omega
            have c2 : ¬ (183 + (beBytes bs.length).length < 184) := by omega
            have c3 : 183 + (beBytes bs.length).length < 192 := by omega
            simp only [decodeItemF, if_neg c1, if_neg c2, if_pos c3]
            have e1 : 183 + (beBytes bs.length).length - 183 = (beBytes bs.length).length := by
              omega
            rw [e1, List.append_assoc]
            rw [if_pos (by simp)]
            rw [List.take_left, List.drop_left, beVal_beBytes]
            rw [if_pos (by simp)]
            rw [List.take_left, List.drop_left]
      | .list items =>
        have hwf2 : wfItems items = true ∧ (encodeItems items).length < 2 ^ 32 := by
          rw [wfItem, Bool.and_eq_true] at hwf
          exact ⟨hwf.2, of_decide_eq_true hwf.1⟩
        have hfuel2 : itemsFuel items ≤ f := by
          rw [itemFuel] at hfuel
          omega
        have hdecs := ih.2 items hwf2.1 hfuel2
        rw [encodeItem]
        by_cases h2 : (encodeItems items).length ≤ 55
        · simp only [if_pos h2]
          show decodeItemF (f + 1)
            ((192 + (encodeItems items).length) :: (encodeItems items ++ rest)) = _
          have c1 : ¬ (192 + (encodeItems items).length < 128) := by omega
          have c2 : ¬ (192 + (encodeItems items).length < 184) := by omega
          have c3 : ¬ (192 + (encodeItems items).length < 192) := by omega
          have c4 : 192 + (encodeItems items).length < 248 := by omega
          simp only [decodeItemF, if_neg c1, if_neg c2, if_neg c3, if_pos c4]
          have e1 : 192 + (encodeItems items).length - 192 = (encodeItems items).length := by
            omega
          rw [e1, if_pos (by simp)]
          rw [List.take_left, List.drop_left, hdecs]
        · simp only [if_neg h2]
          have hll1 : 1 ≤ (beBytes (encodeItems items).length).length := by
            have := beBytes_ne_nil (encodeItems items).length (by omega)
            cases hb : beBytes (encodeItems items).length with
            | nil => exact absurd hb this
            | cons x xs => simp [hb]
          have hll4 : (beBytes (encodeItems items).length).length ≤ 4 :=
            beBytes_length_le_four _ hwf2.2
          show decodeItemF (f + 1)
            ((247 + (beBytes (encodeItems items).length).length) ::
              (beBytes (encodeItems items).length ++ encodeItems items ++ rest)) = _
          have c1 : ¬ (247 + (beBytes (encodeItems items).length).length < 128) := by omega
          have c2 : ¬ (247 + (beBytes (encodeItems items).length).length < 184) := by omega
          have c3 : ¬ (247 + (beBytes (encodeItems items).length).length < 192) := by omega
          have c4 : ¬ (247 + (beBytes (encodeItems items).length).length < 248) := by omega
          simp only [decodeItemF, if_neg c1, if_neg c2, if_neg c3, if_neg c4]
          have e1 : 247 + (beBytes (encodeItems items).length).length - 247
              = (beBytes (encodeItems items).length).length := by omega
          rw [e1, List.append_assoc]
          rw [if_pos (by simp)]
          rw [List.take_left, List.drop_left, beVal_beBytes]
          rw [if_pos (by simp)]
          rw [List.take_left, List.drop_left, hdecs]
    · intro items hwf hfuel
      match items with
      | [] => simp [encodeItems, decodeItemsF]
      | it :: tl =>
        have hwf2 : wfItem it = true ∧ wfItems tl = true := by
          rw [wfItems, Bool.and_eq_true] at hwf
          exact hwf
        have hfit : itemFuel it ≤ f := by
          rw [itemsFuel] at hfuel
          have := le_max_left (itemFuel it) (itemsFuel tl)
          omega
        have hftl : itemsFuel tl ≤ f := by
          rw [itemsFuel] at hfuel
          have := le_max_right (itemFuel it) (itemsFuel tl)
          omega
        have hhd := ih.1 it (encodeItems tl) hwf2.1 hfit
        have htl := ih.2 tl hwf2.2 hftl
        rw [encodeItems]
        obtain ⟨b, bs0, heq⟩ : ∃ b bs0, encodeItem it ++ encodeItems tl = b :: bs0 := by
          cases hc : encodeItem it with
          | nil => exact absurd hc (encodeItem_ne_nil it)
          | cons x xs => exact ⟨x, xs ++ encodeItems tl, by simp [hc]⟩
        rw [heq]
        rw [heq] at hhd
        simp only [decodeItemsF, hhd, htl]

theorem encodeItem_length_pos (it : Item) : 1 ≤ (encodeItem it).length := by
  have := encodeItem_ne_nil it
  cases hc : encodeItem it with
  | nil => exact absurd hc this
  | cons x xs => simp [hc]

/-- The decoding fuel an item needs is at most twice its encoded length. -/
theorem fuel_le_encode_length (n : Nat) :
    (∀ it : Item, itemFuel it ≤ n → itemFuel it ≤ 2 * (encodeItem it).length) ∧
    (∀ items : List Item, itemsFuel items ≤ n →
      itemsFuel items ≤ 2 * (encodeItems items).length + 1) := by
  induction n with
  | zero =>
    constructor
    · intro it h; have := itemFuel_pos it; omega
    · intro items h; have := itemsFuel_pos items; omega
  | succ n ih =>
    constructor
    · intro it h
      match it with
      | .bytes bs =>
        have h1 := encodeItem_length_pos (Item.bytes bs)
        rw [itemFuel]
        omega
      | .list items =>
        rw [itemFuel] at h ⊢
        have hits := ih.2 items (by omega)
        have hlen : (encodeItems items).length + 1 ≤ (encodeItem (Item.list items)).length := by
          rw [encodeItem]
          split
          · simp
          · simp [List.length_append]
        omega
    · intro items h
      match items with
      | [] => rw [itemsFuel]; omega
      | it :: tl =>
        rw [itemsFuel] at h ⊢
        have h1 : itemFuel it ≤ n := by
          have := le_max_left (itemFuel it) (itemsFuel tl)
          omega
        have h2 : itemsFuel tl ≤ n := by
          have := le_max_right (itemFuel it) (itemsFuel tl)
          omega
        have hb1 := ih.1 it h1
        have hb2 := ih.2 tl h2
        have hpos := encodeItem_length_pos it
        have hmax : max (itemFuel it) (itemsFuel tl)
            ≤ 2 * ((encodeItem it).length + (encodeItems tl).length) :=
          max_le (by omega) (by omega)
        rw [encodeItems, List.length_append]
        omega

/-- Decoding the `toRlp` serialisation of a well-formed item recovers the
item exactly, consuming the whole input. -/
theorem rlpDecode_toRlpBytes (it : Item) (h : wfItem it = true) :
    rlpDecode (toRlpBytes it) = some (it, []) := by
  have hfuel : itemFuel it ≤ 2 * (encodeItem it).length + 2 := by
    have h1 := (fuel_le_encode_length (itemFuel it)).1 it le_rfl
    omega
  have hb := (decode_encode (2 * (encodeItem it).length + 2)).1 it [] h hfuel
  rw [List.append_nil] at hb
  exact hb

/-! ## The transaction data model and the payload encoder

These mirror `src/index.ts` (`GolemBaseCreate`, `GolemBaseUpdate`,
`GolemBaseExtend`, `Annotation`) and `createPayload` in
`src/internal/client.ts`. Strings (annotation keys and string values) are
represented by their UTF-8 bytes, binary data by its bytes, and entity
keys by their 32 bytes (`toHex`/`hexToBytes` translate byte strings and
even-length hex strings back and forth losslessly, so the hex-string
detour inside `createPayload` is the identity on these leaves). -/

structure StringAnnotation where
  key : List Nat
  value : List Nat
deriving Repr, DecidableEq

structure NumericAnnotation where
  key : List Nat
  value : Nat
deriving Repr, DecidableEq

structure GolemBaseCreate where
  data : List Nat
  btl : Nat
  stringAnnotations : List StringAnnotation
  numericAnnotations : List NumericAnnotation
deriving Repr, DecidableEq

structure GolemBaseUpdate where
  entityKey : List Nat
  data : List Nat
  btl : Nat
  stringAnnotations : List StringAnnotation
  numericAnnotations : List NumericAnnotation
deriving Repr, DecidableEq

structure GolemBaseExtend where
  entityKey : List Nat
  numberOfBlocks : Nat
deriving Repr, DecidableEq

structure GolemBaseTransaction where
  creates : List GolemBaseCreate
  updates : List GolemBaseUpdate
  deletes : List (List Nat)
  extensions : List GolemBaseExtend
deriving Repr, DecidableEq

/-- `formatAnnotation` on a string-valued annotation:
`[toHex(key), toHex(value)]`. -/
def formatAnnotationStr (a : StringAnnotation) : Item :=
  .list [.bytes a.key, .bytes a.value]

/-- `formatAnnotation` on a numeric annotation: `[toHex(key), toHex(value)]`,
the value going through the `toHex`-on-integer rule. -/
def formatAnnotationNum (a : NumericAnnotation) : Item :=
  .list [.bytes a.key, .bytes (encodeIntViem a.value)]

/-- `createPayload` from `src/internal/client.ts`, up to (but not
including) the final `toRlp` call: the nested array
`[creates, updates, deletes, extensions]` it builds. -/
def createPayload (tx : GolemBaseTransaction) : Item :=
  .list [
    .list (tx.creates.map fun el => .list [
      .bytes (encodeIntViem el.btl),
      .bytes el.data,
      .list (el.stringAnnotations.map formatAnnotationStr),
      .list (el.numericAnnotations.map formatAnnotationNum)]),
    .list (tx.updates.map fun el => .list [
      .bytes el.entityKey,
      .bytes (encodeIntViem el.btl),
      .bytes el.data,
      .list (el.stringAnnotations.map formatAnnotationStr),
      .list (el.numericAnnotations.map formatAnnotationNum)]),
    .list (tx.deletes.map fun k => .bytes k),
    .list (tx.extensions.map fun el => .list [
      .bytes el.entityKey,
      .bytes (encodeIntViem el.numberOfBlocks)])]

/-- The transaction with all four operation lists empty. -/
def emptyTransaction : GolemBaseTransaction := ⟨[], [], [], []⟩

/-- Sample transaction exercising all four operation kinds, used to
instantiate hypotheses of the encoder theorems. -/
def sampleTransaction : GolemBaseTransaction :=
  { creates := [{ data := [1, 2, 3], btl := 25,
                  stringAnnotations := [⟨[107, 101, 121], [118, 97, 108]⟩],
                  numericAnnotations := [⟨[105, 120], 3⟩] }],
    updates := [{ entityKey := List.replicate 32 170, data := [], btl := 0,
                  stringAnnotations := [], numericAnnotations := [] }],
    deletes := [List.replicate 32 187],
    extensions := [⟨List.replicate 32 170, 600⟩] }

/-- Claim C1: for every transaction batch (the well-formedness bound only
excludes batches whose RLP length headers would exceed the 2^32-byte cap at
which `viem.toRlp` itself throws), the encoder is total (a Lean function)
and its output's outermost RLP structure decodes back to exactly four
top-level lists in the fixed create/update/delete/extend order, each
sub-list's element count equal to the corresponding input list's length;
the all-empty batch encodes to `0xc4c0c0c0c0`, the RLP form of
`[[],[],[],[]]`. -/
theorem C1_encode_four_lists (tx : GolemBaseTransaction)
    (hwf : wfItem (createPayload tx) = true) :
    (∃ c u d e : List Item,
      rlpDecode (toRlpBytes (createPayload tx))
        = some (.list [.list c, .list u, .list d, .list e], []) ∧
      c.length = tx.creates.length ∧
      u.length = tx.updates.length ∧
      d.length = tx.deletes.length ∧
      e.length = tx.extensions.length) ∧
    toRlpBytes (createPayload emptyTransaction) = [196, 192, 192, 192, 192] ∧
    rlpDecode (toRlpBytes (createPayload emptyTransaction))
      = some (.list [.list [], .list [], .list [], .list []], []) := by
  refine ⟨?_, by decide, by rfl⟩
  exact ⟨_, _, _, _, rlpDecode_toRlpBytes (createPayload tx) hwf,
    List.length_map _ _, List.length_map _ _, List.length_map _ _, List.length_map _ _⟩

set_option maxRecDepth 8000 in
/-- Witness for C1 at a concrete batch touching all four operation kinds. -/
theorem C1_encode_four_lists_witness :
    wfItem (createPayload sampleTransaction) = true ∧
    ((∃ c u d e : List Item,
      rlpDecode (toRlpBytes (createPayload sampleTransaction))
        = some (.list [.list c, .list u, .list d, .list e], []) ∧
      c.length = sampleTransaction.creates.length ∧
      u.length = sampleTransaction.updates.length ∧
      d.length = sampleTransaction.deletes.length ∧
      e.length = sampleTransaction.extensions.length) ∧
    toRlpBytes (createPayload emptyTransaction) = [196, 192, 192, 192, 192] ∧
    rlpDecode (toRlpBytes (createPayload emptyTransaction))
      = some (.list [.list [], .list [], .list [], .list []], [])) :=
  ⟨by decide, C1_encode_four_lists sampleTransaction (by decide)⟩

/-- Claim C4, counterexample: the claim says the integer zero encodes to
the empty byte string, but the encoder (`toHex(0) = "0x0"`, then
`hexToBytes`) produces the single byte `0x00`. -/
theorem C4_zero_counterexample :
    encodeIntViem 0 = [0] ∧ encodeIntViem 0 ≠ [] := by
  exact ⟨rfl, by decide⟩

/-- Claim C4 (amended): for every positive integer the encoder's integer
encoding (applied to btl, numberOfBlocks and numeric annotation values) is
the shortest big-endian byte sequence with no leading zero byte; the
integer zero however encodes as the single byte `0x00`, not the empty byte
string; decoding the produced encoding (as a big-endian integer) yields
`n` back for every `n ≥ 0`. -/
theorem C4_minimal_integer_encoding (n : Nat) (hn : 1 ≤ n) :
    beVal (encodeIntViem n) = n ∧
    (∀ a ∈ (encodeIntViem n).head?, a ≠ 0) ∧
    (∀ bs : List Nat, (∀ x ∈ bs, x < 256) → beVal bs = n →
      (encodeIntViem n).length ≤ bs.length) ∧
    encodeIntViem 0 = [0] ∧ beVal (encodeIntViem 0) = 0 :=
  ⟨beVal_encodeIntViem n, encodeIntViem_head_ne_zero n hn,
    fun bs hlt hval => encodeIntViem_length_min n hn bs hlt hval, rfl, rfl⟩

/-- Witness for C4 (amended) at `n = 300` (`0x012c`). -/
theorem C4_minimal_integer_encoding_witness :
    (1 ≤ 300 ∧
      beVal (encodeIntViem 300) = 300 ∧
      (∀ a ∈ (encodeIntViem 300).head?, a ≠ 0) ∧
      (∀ bs : List Nat, (∀ x ∈ bs, x < 256) → beVal bs = 300 →
        (encodeIntViem 300).length ≤ bs.length) ∧
      encodeIntViem 0 = [0] ∧ beVal (encodeIntViem 0) = 0) ∧
    encodeIntViem 300 = [1, 44] :=
  ⟨⟨by decide, C4_minimal_integer_encoding 300 (by decide)⟩, by decide⟩

/-! ## The event decoder

Embedding of `parseTransactionLogs` from `src/client.ts` together with the
behaviour of `viem.decodeEventLog` (strict mode, its default) and
`viem.pad`. Event-signature hashes are keccak-256 values of the canonical
signature strings; they are modelled as six distinct abstract constants
(collision-freeness of keccak-256 on these six distinct strings). -/

/-- Hash of `GolemBaseStorageEntityCreated(uint256,uint256)`. -/
def sigCreated : Nat := 0
/-- Hash of `GolemBaseStorageEntityUpdated(uint256,uint256)`. -/
def sigUpdated : Nat := 1
/-- Hash of `GolemBaseStorageEntityDeleted(uint256)`. -/
def sigDeleted : Nat := 2
/-- Hash of `GolemBaseStorageEntityBTLExtended(uint256,uint256,uint256)`. -/
def sigBTLExtended : Nat := 3
/-- Hash of the historical `GolemBaseStorageEntityBTLExptended` signature
(typo name, missing non-indexed argument). -/
def sigLegacyBTLExptended : Nat := 4
/-- Hash of the historical `GolemBaseStorageEntityTTLExptended` signature
(pre-rename of TTL to BTL). -/
def sigLegacyTTLExptended : Nat := 5

/-- The event names appearing in the `switch` of `parseTransactionLogs`. -/
inductive EventName where
  | created
  | updated
  | deleted
  | btlExtended
  | legacyBTLExptended
  | legacyTTLExptended
deriving Repr, DecidableEq

/-- One ABI event entry: its name, its signature hash, and how many
non-indexed 32-byte words its data carries (the sole indexed argument,
the entity key, is always `topics[1]`). -/
structure EventDef where
  name : EventName
  sig : Nat
  nonIndexedWords : Nat
deriving Repr, DecidableEq

/-- `golemBaseABI` from `src/index.ts`: exactly the four current events.
(The two legacy `Exptended` signatures are *not* in this table.) -/
def golemBaseABI : List EventDef :=
  [⟨.created, sigCreated, 1⟩,
   ⟨.updated, sigUpdated, 1⟩,
   ⟨.deleted, sigDeleted, 0⟩,
   ⟨.btlExtended, sigBTLExtended, 2⟩]

/-- A raw log entry: `topics` (32-byte values, `topics[0]` the signature
hash) and `data` as the hex digits of its hex string. -/
structure RawLog where
  topics : List Nat
  data : List Nat
deriving Repr, DecidableEq

/-- The errors `viem.decodeEventLog` can throw in this setting. -/
inductive DecodeErr where
  | emptyTopics
  | sigNotFound
  | topicsMismatch
  | dataMismatch
deriving Repr, DecidableEq

/-- Outcome of `viem.decodeEventLog`: the matched event name, the entity
key decoded from `topics[1]`, and the non-indexed argument words decoded
from `data`. -/
structure ParsedLog where
  name : EventName
  entityKey : Nat
  words : List Nat
deriving Repr, DecidableEq

/-- The `i`-th 32-byte word of a byte string, as an unsigned integer. -/
def wordAt (bytes : List Nat) (i : Nat) : Nat :=
  beVal ((bytes.drop (32 * i)).take 32)

/-- `viem.decodeEventLog` (strict mode, the default): find the ABI event
whose signature hash is `topics[0]` (throwing if there is none), decode
the indexed entity key from `topics[1]`, then decode the non-indexed words
from `data`, throwing `DecodeLogDataMismatch` when `data` is empty or too
short for the event's word count. -/
def decodeEventLog (abi : List EventDef) (data : List Nat) (topics : List Nat) :
    Except DecodeErr ParsedLog :=
  match topics with
  | [] => .error .emptyTopics
  | signature :: argTopics =>
    match abi.find? (fun e => e.sig == signature) with
    | none => .error .sigNotFound
    | some e =>
      match argTopics with
      | [] => .error .topicsMismatch
      | key :: _ =>
        if e.nonIndexedWords = 0 then .ok ⟨e.name, key, []⟩
        else if data.isEmpty then .error .dataMismatch
        else
          let bytes := hexToBytesL data
          if bytes.length < 32 * e.nonIndexedWords then .error .dataMismatch
          else .ok ⟨e.name, key, (List.range e.nonIndexedWords).map (wordAt bytes)⟩

/-- `viem.pad(hex, { size, dir: "left" })` on hex digits: left-pad with
zero digits to `2 * size` digits. -/
def padLeftDigits (targetDigits : Nat) (d : List Nat) : List Nat :=
  List.replicate (targetDigits - d.length) 0 ++ d

/-- The normalization step at the top of `parseTransactionLogs`: the
JavaScript string length of the data (`digits + 2` for the `0x` prefix) is
compared against 34 and 66, and in-window data is left-padded to 32
resp. 64 bytes. -/
def normalizeData (d : List Nat) : List Nat :=
  if d.length + 2 > 2 ∧ d.length + 2 < 34 then padLeftDigits 64 d
  else if d.length + 2 > 34 ∧ d.length + 2 < 66 then padLeftDigits 128 d
  else d

/-- `parseExtendTTLData` from `src/client.ts`: interpret the whole data
blob as one big integer, mask the low 256 bits for the new expiration
block and shift right by 256 for the old one. -/
def parseExtendTTLData (data : List Nat) : Nat × Nat :=
  let dataParsed := hexVal data
  (dataParsed >>> 256, dataParsed &&& (2 ^ 256 - 1))

/-- `CreateEntityReceipt`; the entity key is stored as the hex digits the
code renders with `toHex`. -/
structure CreateEntityReceipt where
  entityKey : List Nat
  expirationBlock : Nat
deriving Repr, DecidableEq

structure UpdateEntityReceipt where
  entityKey : List Nat
  expirationBlock : Nat
deriving Repr, DecidableEq

structure DeleteEntityReceipt where
  entityKey : List Nat
deriving Repr, DecidableEq

structure ExtendEntityReceipt where
  entityKey : List Nat
  oldExpirationBlock : Nat
  newExpirationBlock : Nat
deriving Repr, DecidableEq

/-- The four receipt buckets returned by `parseTransactionLogs`. -/
structure Receipts where
  createEntitiesReceipts : List CreateEntityReceipt
  updateEntitiesReceipts : List UpdateEntityReceipt
  deleteEntitiesReceipts : List DeleteEntityReceipt
  extendEntitiesReceipts : List ExtendEntityReceipt
deriving Repr, DecidableEq

/-- The empty accumulator of the `reduce` in `parseTransactionLogs`. -/
def emptyReceipts : Receipts := ⟨[], [], [], []⟩

/-- One step of the `reduce` in `parseTransactionLogs`: normalize the data,
run `decodeEventLog` (whose exceptions propagate out of the whole call),
and append one receipt to the bucket selected by the event name. The two
legacy `Exptended` cases re-parse the *raw* (un-normalized) data with
`parseExtendTTLData`. -/
def processLog (receipts : Receipts) (txlog : RawLog) : Except DecodeErr Receipts :=
  let paddedData := normalizeData txlog.data
  match decodeEventLog golemBaseABI paddedData txlog.topics with
  | .error e => .error e
  | .ok parsed =>
    match parsed.name with
    | .created =>
      .ok { receipts with createEntitiesReceipts :=
        receipts.createEntitiesReceipts ++
          [⟨toHexDigits parsed.entityKey, parsed.words.headD 0⟩] }
    | .updated =>
      .ok { receipts with updateEntitiesReceipts :=
        receipts.updateEntitiesReceipts ++
          [⟨toHexDigits parsed.entityKey, parsed.words.headD 0⟩] }
    | .btlExtended =>
      .ok { receipts with extendEntitiesReceipts :=
        receipts.extendEntitiesReceipts ++
          [⟨toHexDigits parsed.entityKey, parsed.words.headD 0,
            (parsed.words.drop 1).headD 0⟩] }
    | .deleted =>
      .ok { receipts with deleteEntitiesReceipts :=
        receipts.deleteEntitiesReceipts ++ [⟨toHexDigits parsed.entityKey⟩] }
    | .legacyBTLExptended =>
      let expirationBlocks := parseExtendTTLData txlog.data
      .ok { receipts with extendEntitiesReceipts :=
        receipts.extendEntitiesReceipts ++
          [⟨toHexDigits parsed.entityKey, expirationBlocks.1, expirationBlocks.2⟩] }
    | .legacyTTLExptended =>
      let expirationBlocks := parseExtendTTLData txlog.data
      .ok { receipts with extendEntitiesReceipts :=
        receipts.extendEntitiesReceipts ++
          [⟨toHexDigits parsed.entityKey, expirationBlocks.1, expirationBlocks.2⟩] }

/-- The `reduce` of `parseTransactionLogs`, with a thrown exception
aborting the whole fold. -/
def runLogs (acc : Receipts) : List RawLog → Except DecodeErr Receipts
  | [] => .ok acc
  | lg :: rest =>
    match processLog acc lg with
    | .ok acc2 => runLogs acc2 rest
    | .error e => .error e

/-- `parseTransactionLogs` from `src/client.ts`. -/
def parseTransactionLogs (logs : List RawLog) : Except DecodeErr Receipts :=
  runLogs emptyReceipts logs

/-! ### Per-log classification and bucket characterization -/

/-- The decode step a single log goes through inside `parseTransactionLogs`
(normalization followed by `decodeEventLog`). -/
def classifyLog (lg : RawLog) : Except DecodeErr ParsedLog :=
  decodeEventLog golemBaseABI (normalizeData lg.data) lg.topics

/-- The create receipt a single log contributes, if any. -/
def createReceiptOf (lg : RawLog) : Option CreateEntityReceipt :=
  match classifyLog lg with
  | .ok p => if p.name = .created
      then some ⟨toHexDigits p.entityKey, p.words.headD 0⟩ else none
  | .error _ => none

/-- The update receipt a single log contributes, if any. -/
def updateReceiptOf (lg : RawLog) : Option UpdateEntityReceipt :=
  match classifyLog lg with
  | .ok p => if p.name = .updated
      then some ⟨toHexDigits p.entityKey, p.words.headD 0⟩ else none
  | .error _ => none

/-- The delete receipt a single log contributes, if any. -/
def deleteReceiptOf (lg : RawLog) : Option DeleteEntityReceipt :=
  match classifyLog lg with
  | .ok p => if p.name = .deleted then some ⟨toHexDigits p.entityKey⟩ else none
  | .error _ => none

/-- The extend receipt a single log contributes, if any. -/
def extendReceiptOf (lg : RawLog) : Option ExtendEntityReceipt :=
  match classifyLog lg with
  | .ok p =>
    match p.name with
    | .btlExtended =>
      some ⟨toHexDigits p.entityKey, p.words.headD 0, (p.words.drop 1).headD 0⟩
    | .legacyBTLExptended =>
      some ⟨toHexDigits p.entityKey, (parseExtendTTLData lg.data).1,
        (parseExtendTTLData lg.data).2⟩
    | .legacyTTLExptended =>
      some ⟨toHexDigits p.entityKey, (parseExtendTTLData lg.data).1,
        (parseExtendTTLData lg.data).2⟩
    | _ => none
  | .error _ => none

theorem processLog_ok (acc : Receipts) (lg : RawLog) (acc2 : Receipts)
    (h : processLog acc lg = .ok acc2) :
    acc2.createEntitiesReceipts
        = acc.createEntitiesReceipts ++ (createReceiptOf lg).toList ∧
    acc2.updateEntitiesReceipts
        = acc.updateEntitiesReceipts ++ (updateReceiptOf lg).toList ∧
    acc2.deleteEntitiesReceipts
        = acc.deleteEntitiesReceipts ++ (deleteReceiptOf lg).toList ∧
    acc2.extendEntitiesReceipts
        = acc.extendEntitiesReceipts ++ (extendReceiptOf lg).toList := by
  unfold processLog at h
  simp only [] at h
  unfold createReceiptOf updateReceiptOf deleteReceiptOf extendReceiptOf classifyLog
  cases hc : decodeEventLog golemBaseABI (normalizeData lg.data) lg.topics with
  | error e => rw [hc] at h; exact absurd h (by simp)
  | ok p =>
    rw [hc] at h
    simp only [] at h
    cases hn : p.name <;> simp only [hn] at h <;>
      simp only [Except.ok.injEq] at h <;> subst h <;> simp [hc, hn]

theorem runLogs_buckets : ∀ (logs : List RawLog) (acc r : Receipts),
    runLogs acc logs = .ok r →
    r.createEntitiesReceipts
        = acc.createEntitiesReceipts ++ logs.filterMap createReceiptOf ∧
    r.updateEntitiesReceipts
        = acc.updateEntitiesReceipts ++ logs.filterMap updateReceiptOf ∧
    r.deleteEntitiesReceipts
        = acc.deleteEntitiesReceipts ++ logs.filterMap deleteReceiptOf ∧
    r.extendEntitiesReceipts
        = acc.extendEntitiesReceipts ++ logs.filterMap extendReceiptOf := by
  intro logs
  induction logs with
  | nil =>
    intro acc r h
    rw [runLogs] at h
    cases h
    simp
  | cons lg rest ih =>
    intro acc r h
    rw [runLogs] at h
    cases hp : processLog acc lg with
    | error e => rw [hp] at h; exact absurd h (by simp)
    | ok acc2 =>
      rw [hp] at h
      obtain ⟨h1, h2, h3, h4⟩ := ih acc2 r h
      obtain ⟨g1, g2, g3, g4⟩ := processLog_ok acc lg acc2 hp
      refine ⟨?_, ?_, ?_, ?_⟩ <;>
        simp [h1, h2, h3, h4, g1, g2, g3, g4, List.filterMap_cons] <;>
        cases hco : createReceiptOf lg <;>
        cases huo : updateReceiptOf lg <;>
        cases hdo : deleteReceiptOf lg <;>
        cases heo : extendReceiptOf lg <;>
        simp [hco, huo, hdo, heo]

theorem runLogs_append : ∀ (pre post : List RawLog) (acc : Receipts),
    runLogs acc (pre ++ post)
      = match runLogs acc pre with
        | .ok r => runLogs r post
        | .error e => .error e := by
  intro pre
  induction pre with
  | nil => intro post acc; simp [runLogs]
  | cons lg rest ih =>
    intro post acc
    rw [List.cons_append, runLogs, runLogs]
    cases hp : processLog acc lg with
    | error e => simp
    | ok acc2 => simp [ih post acc2]

/-! ### Normalization lemmas, claims C7 and C10 -/

theorem padLeftDigits_length (t : Nat) (d : List Nat) :
    (padLeftDigits t d).length = max t d.length := by
  simp [padLeftDigits]
  omega

theorem normalizeData_unchanged (d : List Nat)
    (h : d.length = 0 ∨ d.length = 32 ∨ 64 ≤ d.length) : normalizeData d = d := by
  unfold normalizeData
  rw [if_neg (by omega), if_neg (by omega)]

theorem normalizeData_window1 (d : List Nat) (h1 : 1 ≤ d.length) (h2 : d.length ≤ 31) :
    normalizeData d = padLeftDigits 64 d := by
  unfold normalizeData
  rw [if_pos (by omega)]

theorem normalizeData_window2 (d : List Nat) (h1 : 33 ≤ d.length) (h2 : d.length ≤ 63) :
    normalizeData d = padLeftDigits 128 d := by
  unfold normalizeData
  rw [if_neg (by omega), if_pos (by omega)]

/-- Claim C7: the decoder's normalization step (left-pad to 32 bytes in the
first window, to 64 bytes in the second, otherwise leave unchanged) is
idempotent: applying it twice yields the same result as applying it
once, for every data input. -/
theorem C7_normalization_idempotent (d : List Nat) :
    normalizeData (normalizeData d) = normalizeData d := by
  rcases Nat.lt_or_ge d.length 1 with h | h
  · rw [normalizeData_unchanged d (by omega), normalizeData_unchanged d (by omega)]
  rcases Nat.lt_or_ge d.length 32 with h2 | h2
  · rw [normalizeData_window1 d (by omega) (by omega)]
    exact normalizeData_unchanged _ (by rw [padLeftDigits_length]; omega)
  rcases Nat.lt_or_ge d.length 33 with h3 | h3
  · rw [normalizeData_unchanged d (by omega), normalizeData_unchanged d (by omega)]
  rcases Nat.lt_or_ge d.length 64 with h4 | h4
  · rw [normalizeData_window2 d (by omega) (by omega)]
    exact normalizeData_unchanged _ (by rw [padLeftDigits_length]; omega)
  · rw [normalizeData_unchanged d (by omega), normalizeData_unchanged d (by omega)]

theorem bytesToHexDigits_length (bs : List Nat) :
    (bytesToHexDigits bs).length = 2 * bs.length := by
  induction bs with
  | nil => rfl
  | cons b t ih =>
    show (b / 16 :: b % 16 :: bytesToHexDigits t).length = _
    simp only [List.length_cons, ih, List.length_cons]
    omega

/-- Claim C10: the padding thresholds are compared against the length of
the data field's hex-string representation (digits plus the `0x` prefix),
not its byte count. A data field of exactly 16 bytes (hex string length
34) falls in neither window and reaches event decoding unchanged, as does
one of exactly 32 bytes (hex string length 66) — while a 10-byte field,
which a byte-count reading would leave alone, is in fact padded. -/
theorem C10_thresholds_on_hex_length (b16 b32 b10 : List Nat)
    (h16 : b16.length = 16) (h32 : b32.length = 32) (h10 : b10.length = 10) :
    normalizeData (bytesToHexDigits b16) = bytesToHexDigits b16 ∧
    normalizeData (bytesToHexDigits b32) = bytesToHexDigits b32 ∧
    normalizeData (bytesToHexDigits b10) = padLeftDigits 64 (bytesToHexDigits b10) := by
  refine ⟨?_, ?_, ?_⟩
  · exact normalizeData_unchanged _ (by rw [bytesToHexDigits_length, h16]; omega)
  · exact normalizeData_unchanged _ (by rw [bytesToHexDigits_length, h32]; omega)
  · exact normalizeData_window1 _ (by rw [bytesToHexDigits_length, h10]; omega)
      (by rw [bytesToHexDigits_length, h10]; omega)

/-- Witness for C10 at concrete 16-, 32- and 10-byte data fields. -/
theorem C10_thresholds_on_hex_length_witness :
    ((List.replicate 16 7 : List Nat).length = 16 ∧
     (List.replicate 32 7 : List Nat).length = 32 ∧
     (List.replicate 10 7 : List Nat).length = 10) ∧
    (normalizeData (bytesToHexDigits (List.replicate 16 7))
        = bytesToHexDigits (List.replicate 16 7) ∧
     normalizeData (bytesToHexDigits (List.replicate 32 7))
        = bytesToHexDigits (List.replicate 32 7) ∧
     normalizeData (bytesToHexDigits (List.replicate 10 7))
        = padLeftDigits 64 (bytesToHexDigits (List.replicate 10 7))) :=
  ⟨⟨by decide, by decide, by decide⟩,
   C10_thresholds_on_hex_length _ _ _ (by decide) (by decide) (by decide)⟩

/-! ### The legacy `BTLExtended` packing, claim C6 -/

theorem hexVal_bytesToHexDigits (bs : List Nat) :
    hexVal (bytesToHexDigits bs) = beVal bs := by
  induction bs with
  | nil => rfl
  | cons b t ih =>
    show hexVal (b / 16 :: b % 16 :: bytesToHexDigits t) = beVal (b :: t)
    rw [hexVal_cons, hexVal_cons, ih, beVal_cons]
    simp only [List.length_cons, bytesToHexDigits_length]
    have h16 : (16 : Nat) ^ (2 * t.length) = 256 ^ t.length := by
      rw [pow_mul]
      norm_num
    rw [← h16]
    have hqr : 16 * (b / 16) + b % 16 = b := Nat.div_add_mod b 16
    conv_rhs => rw [← hqr]
    ring

/-- The 64-byte blob from the comment in `parseExtendTTLData`: thirty zero
bytes, `0x01`, `0x2f`, then thirty zero bytes, `0x01`, `0x43`. -/
def legacyBlob64 : List Nat :=
  List.replicate 30 0 ++ [1, 47] ++ List.replicate 30 0 ++ [1, 67]

/-- The blob as the claim literally describes it: thirty-ONE zero bytes
before each `0x01` — which makes it 66 bytes, not 64. -/
def legacyBlob66 : List Nat :=
  List.replicate 31 0 ++ [1, 47] ++ List.replicate 31 0 ++ [1, 67]

set_option maxRecDepth 8000 in
/-- Claim C6, counterexample: on the blob the claim literally describes
(thirty-one zero bytes, `0x01`, `0x2f`, followed by thirty-one zero bytes,
`0x01`, `0x43`) — which is 66 bytes long, not 64 — the decoder returns
`old = 0x12f00`, not the claimed `0x12f`. -/
theorem C6_blob_counterexample :
    legacyBlob66.length = 66 ∧
    parseExtendTTLData (bytesToHexDigits legacyBlob66) = (77568, 323) ∧
    (77568 : Nat) ≠ 303 :=
  ⟨by decide, by decide, by decide⟩

set_option maxRecDepth 8000 in
/-- Claim C6 (amended): `parseExtendTTLData` treats the data blob as a
single big-endian integer `v` and returns `(v >>> 256, v &&& (2^256-1))`;
for a 64-byte blob this recovers the high and low 32-byte halves, and on
the blob of *thirty* zero bytes, `0x01`, `0x2f`, followed by thirty zero
bytes, `0x01`, `0x43`, it returns `old = 0x12f` and `new = 0x143`. -/
theorem C6_legacy_extend_packing (bytes hi lo : List Nat)
    (hlo : lo.length = 32) (hlolt : ∀ x ∈ lo, x < 256) :
    parseExtendTTLData (bytesToHexDigits bytes)
      = (beVal bytes >>> 256, beVal bytes &&& (2 ^ 256 - 1)) ∧
    parseExtendTTLData (bytesToHexDigits (hi ++ lo)) = (beVal hi, beVal lo) ∧
    parseExtendTTLData (bytesToHexDigits legacyBlob64) = (303, 323) := by
  have hgen : ∀ ds : List Nat, parseExtendTTLData (bytesToHexDigits ds)
      = (beVal ds >>> 256, beVal ds &&& (2 ^ 256 - 1)) := by
    intro ds
    unfold parseExtendTTLData
    rw [hexVal_bytesToHexDigits]
  refine ⟨hgen bytes, ?_, by decide⟩
  rw [hgen (hi ++ lo)]
  have hsplit : beVal (hi ++ lo) = beVal hi * 2 ^ 256 + beVal lo := by
    rw [beVal_append, hlo]
    norm_num
  have hlt : beVal lo < 2 ^ 256 := by
    have := beVal_lt_pow lo hlolt
    rw [hlo] at this
    calc beVal lo < 256 ^ 32 := this
    _ = 2 ^ 256 := by norm_num
  rw [hsplit, Nat.shiftRight_eq_div_pow, Nat.and_pow_two_sub_one_eq_mod]
  have h1 : (beVal hi * 2 ^ 256 + beVal lo) / 2 ^ 256 = beVal hi := by
    rw [mul_comm, Nat.mul_add_div (by positivity), Nat.div_eq_of_lt hlt]
    omega
  have h2 : (beVal hi * 2 ^ 256 + beVal lo) % 2 ^ 256 = beVal lo := by
    rw [mul_comm, Nat.mul_add_mod, Nat.mod_eq_of_lt hlt]
  rw [h1, h2]

set_option maxRecDepth 8000 in
/-- Witness for C6 (amended) at the 64-byte blob and its two halves. -/
theorem C6_legacy_extend_packing_witness :
    ((List.replicate 30 0 ++ [1, 67] : List Nat).length = 32 ∧
     (∀ x ∈ (List.replicate 30 0 ++ [1, 67] : List Nat), x < 256)) ∧
    (parseExtendTTLData (bytesToHexDigits legacyBlob64)
        = (beVal legacyBlob64 >>> 256, beVal legacyBlob64 &&& (2 ^ 256 - 1)) ∧
     parseExtendTTLData (bytesToHexDigits
        ((List.replicate 30 0 ++ [1, 47]) ++ (List.replicate 30 0 ++ [1, 67])))
        = (beVal (List.replicate 30 0 ++ [1, 47] : List Nat),
           beVal (List.replicate 30 0 ++ [1, 67] : List Nat)) ∧
     parseExtendTTLData (bytesToHexDigits legacyBlob64) = (303, 323)) :=
  ⟨⟨by decide, by decide⟩,
   C6_legacy_extend_packing legacyBlob64 _ _ (by decide) (by decide)⟩

/-! ### Legacy signatures at decode entry, claim C5 -/

set_option maxRecDepth 8000 in
/-- Claim C5: the dispatch table `golemBaseABI` handed to `decodeEventLog`
contains neither historical extend signature, so a log carrying a legacy
signature hash makes `decodeEventLog` throw
(`AbiEventSignatureNotFoundError`) before the legacy `switch` branches can
run: the whole decode call fails instead of producing an
`ExtendEntityReceipt`. The legacy branches in `parseTransactionLogs` are
unreachable. -/
theorem C5_legacy_signature_throws :
    golemBaseABI.find? (fun e => e.sig == sigLegacyBTLExptended) = none ∧
    golemBaseABI.find? (fun e => e.sig == sigLegacyTTLExptended) = none ∧
    parseTransactionLogs
        [⟨[sigLegacyBTLExptended, 7], bytesToHexDigits legacyBlob64⟩]
      = .error .sigNotFound ∧
    parseTransactionLogs
        [⟨[sigLegacyTTLExptended, 7], bytesToHexDigits legacyBlob64⟩]
      = .error .sigNotFound :=
  ⟨rfl, rfl, rfl, rfl⟩

/-! ### Error semantics of the decode loop, claims C2 and C3 -/

/-- Concrete well-formed logs used in counterexamples and witnesses. -/
def keyA : Nat := beVal (List.replicate 32 170)

def keyB : Nat := beVal (List.replicate 32 187)

/-- A 32-byte data word of value 25 (`0x19`), as hex digits. -/
def dataWord25 : List Nat := List.replicate 62 0 ++ [1, 9]

/-- A well-formed `Created` log for entity key `0xAAAA…AA` expiring at
block 25. -/
def createdLogA : RawLog := ⟨[sigCreated, keyA], dataWord25⟩

/-- A well-formed `Deleted` log for entity key `0xBBBB…BB`. -/
def deletedLogB : RawLog := ⟨[sigDeleted, keyB], []⟩

set_option maxRecDepth 8000 in
/-- Claim C2, counterexample: a log whose `topics[0]` matches no known
event signature is not silently skipped — the whole decode call throws
`AbiEventSignatureNotFoundError`, and the well-formed `Deleted` log in the
same batch yields no receipt. -/
theorem C2_unknown_sig_counterexample :
    parseTransactionLogs [⟨[99, 7], []⟩, deletedLogB] = .error .sigNotFound :=
  rfl

/-- Claim C2 (amended): a log entry whose `topics[0]` matches none of the
four signatures in `golemBaseABI` makes the whole decode call fail with
the signature-not-found error, regardless of what follows it; no receipts
are returned, including those of well-formed entries before or after it. -/
theorem C2_unknown_signature_aborts (pre post : List RawLog) (s : Nat)
    (tk d : List Nat) (r : Receipts)
    (hpre : parseTransactionLogs pre = .ok r)
    (hs : ∀ e ∈ golemBaseABI, e.sig ≠ s) :
    parseTransactionLogs (pre ++ ⟨s :: tk, d⟩ :: post) = .error .sigNotFound := by
  have hfind : golemBaseABI.find? (fun e => e.sig == s) = none := by
    rw [List.find?_eq_none]
    intro e he
    simpa using hs e he
  have hproc : processLog r ⟨s :: tk, d⟩ = .error .sigNotFound := by
    unfold processLog decodeEventLog
    simp only [hfind]
  unfold parseTransactionLogs at *
  rw [runLogs_append, hpre]
  simp only []
  rw [runLogs, hproc]

set_option maxRecDepth 8000 in
/-- Witness for C2 (amended): one well-formed `Deleted` log, then an
unknown-signature log, then a well-formed `Created` log. -/
theorem C2_unknown_signature_aborts_witness :
    (parseTransactionLogs [deletedLogB]
        = .ok ⟨[], [], [⟨List.replicate 64 11⟩], []⟩ ∧
      (∀ e ∈ golemBaseABI, e.sig ≠ 99)) ∧
    parseTransactionLogs ([deletedLogB] ++ ⟨99 :: [7], []⟩ :: [createdLogA])
      = .error .sigNotFound :=
  ⟨⟨by rfl, by decide⟩,
   C2_unknown_signature_aborts [deletedLogB] [createdLogA] 99 [7] []
     ⟨[], [], [⟨List.replicate 64 11⟩], []⟩ (by rfl) (by decide)⟩

/-- A thrown per-entry decode error aborts the whole fold of
`parseTransactionLogs`. -/
theorem processLog_error_of_classify (acc : Receipts) (lg : RawLog) (e : DecodeErr)
    (h : classifyLog lg = .error e) : processLog acc lg = .error e := by
  unfold processLog
  unfold classifyLog at h
  simp only []
  rw [h]

theorem parse_abort (pre post : List RawLog) (lg : RawLog) (e : DecodeErr)
    (r : Receipts) (hpre : parseTransactionLogs pre = .ok r)
    (hlg : classifyLog lg = .error e) :
    parseTransactionLogs (pre ++ lg :: post) = .error e := by
  unfold parseTransactionLogs at *
  rw [runLogs_append, hpre]
  simp only []
  rw [runLogs, processLog_error_of_classify r lg e hlg]

/-- A `Created` log whose data is 16 bytes (hex-string length 34, in
neither padding window) fails strict ABI decoding: 16 bytes are too few
for the one expected 32-byte word. -/
theorem classify_created_16_bytes (k : Nat) (tk d : List Nat) (hd : d.length = 32) :
    classifyLog ⟨sigCreated :: k :: tk, d⟩ = .error .dataMismatch := by
  have hnorm : normalizeData d = d := normalizeData_unchanged d (by omega)
  have hne : d.isEmpty = false := by
    cases d with
    | nil => simp at hd
    | cons a t => rfl
  have hbytes : (hexToBytesL d).length = 16 := by
    rw [hexToBytesL_length, hd]
  unfold classifyLog decodeEventLog
  simp only [hnorm]
  simp only [show golemBaseABI.find? (fun e => e.sig == sigCreated)
      = some ⟨.created, sigCreated, 1⟩ from rfl]
  simp only [hne, hbytes]
  norm_num

set_option maxRecDepth 8000 in
/-- Claim C3, counterexample: a batch with one malformed `Created` log
(16-byte data) and one well-formed `Deleted` log does not decode the
`Deleted` entry and report the bad one: the whole call throws
`DecodeLogDataMismatch`, and no receipts at all are returned. -/
theorem C3_malformed_counterexample :
    parseTransactionLogs [⟨[sigCreated, keyA], List.replicate 32 0⟩, deletedLogB]
      = .error .dataMismatch :=
  rfl

/-- Claim C3 (amended): a log whose `topics[0]` matches a known signature
but whose data length is inconsistent with that signature's expected word
count (here, 16 bytes for the one-word `Created` layout) makes the whole
decode call fail with the data-mismatch error: no receipts are returned,
and the other entries of the batch, before or after it, are not decoded. -/
theorem C3_malformed_data_aborts (pre post : List RawLog) (k : Nat)
    (tk d : List Nat) (r : Receipts)
    (hpre : parseTransactionLogs pre = .ok r) (hd : d.length = 32) :
    parseTransactionLogs (pre ++ ⟨sigCreated :: k :: tk, d⟩ :: post)
      = .error .dataMismatch :=
  parse_abort pre post _ _ r hpre (classify_created_16_bytes k tk d hd)

set_option maxRecDepth 8000 in
/-- Witness for C3 (amended): a well-formed `Deleted` log, then the
malformed `Created` log, then another well-formed log. -/
theorem C3_malformed_data_aborts_witness :
    (parseTransactionLogs [deletedLogB]
        = .ok ⟨[], [], [⟨List.replicate 64 11⟩], []⟩ ∧
      (List.replicate 32 0 : List Nat).length = 32) ∧
    parseTransactionLogs
        ([deletedLogB] ++ ⟨sigCreated :: keyA :: [], List.replicate 32 0⟩ :: [createdLogA])
      = .error .dataMismatch :=
  ⟨⟨by rfl, by decide⟩,
   C3_malformed_data_aborts [deletedLogB] [createdLogA] keyA [] (List.replicate 32 0)
     ⟨[], [], [⟨List.replicate 64 11⟩], []⟩ (by rfl) (by decide)⟩

/-! ### Bucket grouping and ordering, claim C8 -/

set_option maxRecDepth 8000 in
/-- Claim C8: decoding groups receipts by operation kind — each bucket is
exactly the in-order `filterMap` of the input logs by that kind's
per-entry receipt — so input log order is preserved within each bucket and
one call can populate several buckets; the batch of one `Created(0xAA…,
data ending 0x19)` log and one `Deleted(0xBB…)` log yields exactly one
create receipt with expiration block 25 and one delete receipt, the other
buckets staying empty. -/
theorem C8_buckets_preserve_order (logs : List RawLog) (r : Receipts)
    (h : parseTransactionLogs logs = .ok r) :
    (r.createEntitiesReceipts = logs.filterMap createReceiptOf ∧
     r.updateEntitiesReceipts = logs.filterMap updateReceiptOf ∧
     r.deleteEntitiesReceipts = logs.filterMap deleteReceiptOf ∧
     r.extendEntitiesReceipts = logs.filterMap extendReceiptOf) ∧
    parseTransactionLogs [createdLogA, deletedLogB]
      = .ok ⟨[⟨List.replicate 64 10, 25⟩], [], [⟨List.replicate 64 11⟩], []⟩ := by
  constructor
  · have hb := runLogs_buckets logs emptyReceipts r h
    simpa [emptyReceipts] using hb
  · rfl

set_option maxRecDepth 8000 in
/-- Witness for C8 at the create-and-delete-in-one-transaction batch. -/
theorem C8_buckets_preserve_order_witness :
    parseTransactionLogs [createdLogA, deletedLogB]
      = .ok ⟨[⟨List.replicate 64 10, 25⟩], [], [⟨List.replicate 64 11⟩], []⟩ ∧
    (((⟨[⟨List.replicate 64 10, 25⟩], [], [⟨List.replicate 64 11⟩], []⟩ :
        Receipts).createEntitiesReceipts
        = [createdLogA, deletedLogB].filterMap createReceiptOf ∧
      (⟨[⟨List.replicate 64 10, 25⟩], [], [⟨List.replicate 64 11⟩], []⟩ :
        Receipts).updateEntitiesReceipts
        = [createdLogA, deletedLogB].filterMap updateReceiptOf ∧
      (⟨[⟨List.replicate 64 10, 25⟩], [], [⟨List.replicate 64 11⟩], []⟩ :
        Receipts).deleteEntitiesReceipts
        = [createdLogA, deletedLogB].filterMap deleteReceiptOf ∧
      (⟨[⟨List.replicate 64 10, 25⟩], [], [⟨List.replicate 64 11⟩], []⟩ :
        Receipts).extendEntitiesReceipts
        = [createdLogA, deletedLogB].filterMap extendReceiptOf) ∧
     parseTransactionLogs [createdLogA, deletedLogB]
      = .ok ⟨[⟨List.replicate 64 10, 25⟩], [], [⟨List.replicate 64 11⟩], []⟩) :=
  ⟨by rfl, C8_buckets_preserve_order [createdLogA, deletedLogB] _ (by rfl)⟩

/-! ### Entity-key rendering, claim C9 -/

theorem toHexDigits_head_ne_zero (k : Nat) (hk : 1 ≤ k) :
    (toHexDigits k).head? ≠ some 0 := by
  unfold toHexDigits
  rw [if_neg (by omega)]
  exact minDigitsAux_head_ne_zero 16 (by norm_num) k k hk le_rfl

theorem toHexDigits_length_eq_64_iff (k : Nat) (h1 : 1 ≤ k) (h2 : k < 2 ^ 256) :
    (toHexDigits k).length = 64 ↔ 16 ^ 63 ≤ k := by
  unfold toHexDigits
  rw [if_neg (by omega)]
  have hpow : (16 : Nat) ^ 64 = 2 ^ 256 := by
    show ((2 : Nat) ^ 4) ^ 64 = 2 ^ 256
    rw [← pow_mul]
  constructor
  · intro hlen
    by_contra hlt
    push_neg at hlt
    have := minDigitsAux_length_le 16 (by norm_num) k k 63 le_rfl hlt
    rw [show minDigitsAux 16 k k = minDigits 16 k from rfl] at this
    omega
  · intro hge
    have hub : (minDigits 16 k).length ≤ 64 :=
      minDigitsAux_length_le 16 (by norm_num) k k 64 le_rfl (by omega)
    have hlb := minDigitsAux_lt_pow_length 16 (by norm_num) k k le_rfl
    rw [show minDigitsAux 16 k k = minDigits 16 k from rfl] at hlb
    have hgt : 63 < (minDigits 16 k).length := by
      by_contra hh
      push_neg at hh
      have : (16 : Nat) ^ (minDigits 16 k).length ≤ 16 ^ 63 :=
        Nat.pow_le_pow_right (by norm_num) hh
      omega
    omega

set_option maxRecDepth 8000 in
/-- Claim C9, counterexample: a `Created` log whose 32-byte `topics[1]`
has numeric value 1 (sixty-three leading zero hex digits) yields a receipt
whose `entityKey` renders as `0x1` — one hex digit, not sixty-four. -/
theorem C9_short_key_counterexample :
    parseTransactionLogs [⟨[sigCreated, 1], dataWord25⟩]
      = .ok ⟨[⟨[1], 25⟩], [], [], []⟩ ∧
    ([1] : List Nat).length ≠ 64 :=
  ⟨by rfl, by decide⟩

set_option maxRecDepth 8000 in
/-- Claim C9 (amended): the `entityKey` of every receipt is rendered with
`toHex` as a `0x`-prefixed *minimal* hex string — no leading zero digit —
so it has exactly 64 hex digits precisely when the key's numeric value is
at least `16^63`; keys whose value has leading zero nibbles render
shorter. -/
theorem C9_minimal_hex_key_rendering (k : Nat) (h1 : 1 ≤ k) (h2 : k < 2 ^ 256) :
    parseTransactionLogs [⟨[sigCreated, k], dataWord25⟩]
      = .ok ⟨[⟨toHexDigits k, 25⟩], [], [], []⟩ ∧
    (toHexDigits k).head? ≠ some 0 ∧
    ((toHexDigits k).length = 64 ↔ 16 ^ 63 ≤ k) :=
  ⟨by with_unfolding_all rfl, toHexDigits_head_ne_zero k h1,
    toHexDigits_length_eq_64_iff k h1 h2⟩

set_option maxRecDepth 8000 in
/-- Witness for C9 (amended) at the full-width key `0xAAAA…AA`. -/
theorem C9_minimal_hex_key_rendering_witness :
    (1 ≤ keyA ∧ keyA < 2 ^ 256) ∧
    (parseTransactionLogs [⟨[sigCreated, keyA], dataWord25⟩]
        = .ok ⟨[⟨toHexDigits keyA, 25⟩], [], [], []⟩ ∧
      (toHexDigits keyA).head? ≠ some 0 ∧
      ((toHexDigits keyA).length = 64 ↔ 16 ^ 63 ≤ keyA)) :=
  ⟨⟨by decide, by decide⟩, C9_minimal_hex_key_rendering keyA (by decide) (by decide)⟩
